import Mathlib

set_option maxRecDepth 4000

/-!
# Verification of `diff_cover.snippets`

Shallow embedding of the snippet subsystem of `diff-cover`
(`src/diff_cover/snippets.py`): the range-merging sweep
`Snippet._snippet_ranges`, the line remapping `Snippet._shift_lines`,
the guarded constructor `Snippet.__init__`, and the extraction pipeline
`Snippet.load_snippets` (modulo file I/O: we take the file contents as
an argument instead of reading them from disk).

Line numbers are natural numbers; Python's `max(1, line - 4)` agrees
with truncated subtraction `max 1 (line - 4)` on every line number the
sweep visits (they are all ≥ 1).
-/

namespace DiffCover

/-- Constant `Snippet.NUM_CONTEXT_LINES`: extra lines of context before/after. -/
def NUM_CONTEXT_LINES : Nat := 4

/-- Constant `Snippet.MAX_GAP_IN_SNIPPET`: maximum distance between violations
within one snippet. -/
def MAX_GAP_IN_SNIPPET : Nat := 4

/-- Loop state of `_snippet_ranges`.  In the Python code
`current_range[1]` is `None` whenever the loop head is reached (the end
is only filled in transiently, immediately before the pair is appended
and the state reset), so the live state is just the optional start. -/
structure SweepState where
  currentStart : Option Nat
  gap : Nat
  ranges : List (Nat × Nat)

/-- One iteration of the `for line_num in range(1, num_src_lines + 1)`
loop body of `_snippet_ranges`, including the unconditional trailing
`lines_since_last_violation += 1`. -/
def snippetStep (numSrcLines : Nat) (violationLines : List Nat)
    (st : SweepState) (lineNum : Nat) : SweepState :=
  match st.currentStart with
  | none =>
      if lineNum ∈ violationLines then
        { currentStart := some (max 1 (lineNum - NUM_CONTEXT_LINES)),
          gap := 0 + 1, ranges := st.ranges }
      else
        { st with gap := st.gap + 1 }
  | some s =>
      if lineNum ∈ violationLines then
        { st with gap := 0 + 1 }
      else if MAX_GAP_IN_SNIPPET < st.gap then
        { currentStart := none, gap := st.gap + 1,
          ranges := st.ranges ++
            [(s, min numSrcLines (lineNum - st.gap + NUM_CONTEXT_LINES))] }
      else
        { st with gap := st.gap + 1 }

/-- The post-sweep step of `_snippet_ranges`: a still-open range is
closed with end = `num_src_lines`. -/
def finishSweep (numSrcLines : Nat) (st : SweepState) : List (Nat × Nat) :=
  match st.currentStart with
  | some s => st.ranges ++ [(s, numSrcLines)]
  | none => st.ranges

/-- Function `Snippet._snippet_ranges`: sweep lines `1 .. num_src_lines`, then
close a still-open range with end = `num_src_lines`. -/
def snippet_ranges (numSrcLines : Nat) (violationLines : List Nat) :
    List (Nat × Nat) :=
  finishSweep numSrcLines
    ((List.range' 1 numSrcLines).foldl
      (snippetStep numSrcLines violationLines) ⟨none, 0, []⟩)

/-- Function `Snippet._shift_lines`: `[line - start + 1 for line in lines if line >= start]`. -/
def shift_lines (line_num_list : List Int) (start_line : Int) : List Int :=
  (line_num_list.filter (fun l => start_line ≤ l)).map
    (fun l => l - start_line + 1)

/-- The data stored by a successfully constructed `Snippet`. -/
structure Snippet where
  src_str : List Char
  src_filename : String
  start_line : Int
  violation_lines : List Nat
deriving DecidableEq

/-- Constructor `Snippet.__init__`: raises `ValueError` when `start_line < 1`,
modelled as `none`. -/
def Snippet.make (src_str : List Char) (src_filename : String)
    (start_line : Int) (violation_lines : List Nat) : Option Snippet :=
  if start_line < 1 then none
  else some ⟨src_str, src_filename, start_line, violation_lines⟩

/-- Python `str.split('\n')` on the character list of the string: always
returns at least one segment; the empty string yields `[[]]`. -/
def splitOnNewline : List Char → List (List Char)
  | [] => [[]]
  | c :: cs =>
      if c = '\n' then [] :: splitOnNewline cs
      else
        match splitOnNewline cs with
        | [] => [[c]]
        | l :: ls => (c :: l) :: ls

/-- Python `'\n'.join(lines)` on character lists. -/
def joinLines : List (List Char) → List Char
  | [] => []
  | [l] => l
  | l :: ls => l ++ '\n' :: joinLines ls

/-- Function `Snippet.load_snippets` with the file contents passed in place of
the file path (the `open`/`read` I/O is outside the model): split the
contents on newlines, compute the snippet ranges, and construct one
snippet per range from the slice `src_lines[start - 1 : end]`.  Each
construction goes through the guarded constructor `Snippet.make`. -/
def load_snippets (contents : List Char) (src_path : String)
    (violation_lines : List Nat) : List (Option Snippet) :=
  let src_lines := splitOnNewline contents
  let ranges := snippet_ranges src_lines.length violation_lines
  ranges.map (fun se =>
    Snippet.make
      (joinLines ((src_lines.drop (se.1 - 1)).take (se.2 - (se.1 - 1))))
      src_path (se.1 : Int) violation_lines)

/-! ## Closed-form characterization of the sweep

The sweep groups the in-file flagged lines (sorted ascending) into
maximal runs in which consecutive flagged lines are at most
`MAX_GAP_IN_SNIPPET + 1` apart, and turns each run `(first, last)` into
the clamped range `(max 1 (first - 4), min n (last + 4))`. -/

/-- Grouping worker: `first`/`last` delimit the run being built. -/
def runsGo (first last : Nat) : List Nat → List (Nat × Nat)
  | [] => [(first, last)]
  | y :: ys =>
      if y ≤ last + 5 then runsGo first y ys
      else (first, last) :: runsGo y y ys

/-- Group a sorted list of flagged lines into maximal `(first, last)`
runs with consecutive elements at most 5 apart. -/
def runs : List Nat → List (Nat × Nat)
  | [] => []
  | x :: xs => runsGo x x xs

/-- Context clamping applied to a run `(first, last)`. -/
def clampRange (n : Nat) (r : Nat × Nat) : Nat × Nat :=
  (max 1 (r.1 - NUM_CONTEXT_LINES), min n (r.2 + NUM_CONTEXT_LINES))

/-- The flagged lines among `1 .. k`, in ascending order. -/
def flaggedUpTo (k : Nat) (v : List Nat) : List Nat :=
  (List.range' 1 k).filter (fun i => decide (i ∈ v))

/-- Closed form of `_snippet_ranges`. -/
def specRanges (n : Nat) (v : List Nat) : List (Nat × Nat) :=
  (runs (flaggedUpTo n v)).map (clampRange n)

/-- Invariant of the `_snippet_ranges` sweep after processing lines
`1 .. k`.  When no range is open, the closed ranges are exactly the
clamped runs of the flagged lines seen so far (and the last run ended
at least 5 lines ago).  When a range is open, all runs but the last
are closed, the open start comes from the first line of the last run,
and the gap counter measures the distance to the last flagged line. -/
def Inv (n : Nat) (v : List Nat) (k : Nat) (st : SweepState) : Prop :=
  match st.currentStart with
  | none =>
      (flaggedUpTo k v = [] ∧ st.ranges = []) ∨
      (∃ R f0 p, runs (flaggedUpTo k v) = R ++ [(f0, p)] ∧
        st.ranges = (R ++ [(f0, p)]).map (clampRange n) ∧ p + 5 ≤ k)
  | some s =>
      ∃ R f0 p, runs (flaggedUpTo k v) = R ++ [(f0, p)] ∧
        st.ranges = R.map (clampRange n) ∧
        s = max 1 (f0 - 4) ∧
        st.gap + p = k + 1 ∧ p ≤ k ∧ k ≤ p + 4

/-! ## Structural lemmas about `runs` -/

theorem runsGo_ne_nil (xs : List Nat) : ∀ f l, runsGo f l xs ≠ [] := by
  induction xs with
  | nil => intro f l; simp [runsGo]
  | cons y ys ih =>
      intro f l
      simp only [runsGo]
      split
      · exact ih f y
      · simp

theorem runsGo_snoc_near (xs : List Nat) :
    ∀ (f l : Nat) (R : List (Nat × Nat)) (a b y : Nat),
      runsGo f l xs = R ++ [(a, b)] → y ≤ b + 5 →
      runsGo f l (xs ++ [y]) = R ++ [(a, y)] := by
  induction xs with
  | nil =>
      intro f l R a b y h hy
      simp only [runsGo] at h
      rcases R with _ | ⟨r, R'⟩
      · simp only [List.nil_append, List.cons.injEq, Prod.mk.injEq] at h
        obtain ⟨⟨hf, hl⟩, -⟩ := h
        subst hf; subst hl
        simp only [List.nil_append, runsGo]
        rw [if_pos hy]
      · exfalso
        have := congrArg List.length h
        simp at this
  | cons x xs ih =>
      intro f l R a b y h hy
      simp only [runsGo] at h
      rw [List.cons_append]
      simp only [runsGo]
      by_cases hx : x ≤ l + 5
      · rw [if_pos hx] at h
        rw [if_pos hx]
        exact ih f x R a b y h hy
      · rw [if_neg hx] at h
        rw [if_neg hx]
        rcases R with _ | ⟨r, R'⟩
        · exfalso
          simp only [List.nil_append, List.cons.injEq, Prod.mk.injEq] at h
          exact runsGo_ne_nil xs x x h.2
        · simp only [List.cons_append, List.cons.injEq] at h
          obtain ⟨hr, h2⟩ := h
          rw [ih x x R' a b y h2 hy, hr]
          simp

theorem runsGo_snoc_far (xs : List Nat) :
    ∀ (f l : Nat) (R : List (Nat × Nat)) (a b y : Nat),
      runsGo f l xs = R ++ [(a, b)] → b + 5 < y →
      runsGo f l (xs ++ [y]) = R ++ [(a, b), (y, y)] := by
  induction xs with
  | nil =>
      intro f l R a b y h hy
      simp only [runsGo] at h
      rcases R with _ | ⟨r, R'⟩
      · simp only [List.nil_append, List.cons.injEq, Prod.mk.injEq] at h
        obtain ⟨⟨hf, hl⟩, -⟩ := h
        subst hf; subst hl
        simp only [List.nil_append, runsGo]
        rw [if_neg (by omega)]
      · exfalso
        have := congrArg List.length h
        simp at this
  | cons x xs ih =>
      intro f l R a b y h hy
      simp only [runsGo] at h
      rw [List.cons_append]
      simp only [runsGo]
      by_cases hx : x ≤ l + 5
      · rw [if_pos hx] at h
        rw [if_pos hx]
        exact ih f x R a b y h hy
      · rw [if_neg hx] at h
        rw [if_neg hx]
        rcases R with _ | ⟨r, R'⟩
        · exfalso
          simp only [List.nil_append, List.cons.injEq, Prod.mk.injEq] at h
          exact runsGo_ne_nil xs x x h.2
        · simp only [List.cons_append, List.cons.injEq] at h
          obtain ⟨hr, h2⟩ := h
          rw [ih x x R' a b y h2 hy, hr]
          simp

theorem runs_snoc_near {xs : List Nat} {R : List (Nat × Nat)} {a b y : Nat}
    (h : runs xs = R ++ [(a, b)]) (hy : y ≤ b + 5) :
    runs (xs ++ [y]) = R ++ [(a, y)] := by
  rcases xs with _ | ⟨x, xs'⟩
  · exfalso
    simp only [runs] at h
    have := congrArg List.length h
    simp at this
  · simp only [runs] at h
    rw [List.cons_append]
    simp only [runs]
    exact runsGo_snoc_near xs' x x R a b y h hy

theorem runs_snoc_far {xs : List Nat} {R : List (Nat × Nat)} {a b y : Nat}
    (h : runs xs = R ++ [(a, b)]) (hy : b + 5 < y) :
    runs (xs ++ [y]) = R ++ [(a, b), (y, y)] := by
  rcases xs with _ | ⟨x, xs'⟩
  · exfalso
    simp only [runs] at h
    have := congrArg List.length h
    simp at this
  · simp only [runs] at h
    rw [List.cons_append]
    simp only [runs]
    exact runsGo_snoc_far xs' x x R a b y h hy

theorem runsGo_endpoints (xs : List Nat) :
    ∀ f l r, r ∈ runsGo f l xs → r.1 ∈ f :: xs ∧ r.2 ∈ l :: xs := by
  induction xs with
  | nil =>
      intro f l r hr
      simp only [runsGo, List.mem_singleton] at hr
      subst hr
      simp
  | cons y ys ih =>
      intro f l r hr
      simp only [runsGo] at hr
      by_cases hy : y ≤ l + 5
      · rw [if_pos hy] at hr
        obtain ⟨h1, h2⟩ := ih f y r hr
        simp only [List.mem_cons] at h1 h2 ⊢
        exact ⟨by tauto, by tauto⟩
      · rw [if_neg hy] at hr
        rcases List.mem_cons.mp hr with hr | hr
        · subst hr; simp
        · obtain ⟨h1, h2⟩ := ih y y r hr
          simp only [List.mem_cons] at h1 h2 ⊢
          exact ⟨by tauto, by tauto⟩

theorem runsGo_fst_le_snd (xs : List Nat) :
    ∀ f l, f ≤ l → List.Pairwise (· < ·) (l :: xs) →
      ∀ r ∈ runsGo f l xs, r.1 ≤ r.2 := by
  induction xs with
  | nil =>
      intro f l hfl _ r hr
      simp only [runsGo, List.mem_singleton] at hr
      subst hr
      exact hfl
  | cons y ys ih =>
      intro f l hfl hp r hr
      rw [List.pairwise_cons] at hp
      have hly : l < y := hp.1 y (by simp)
      simp only [runsGo] at hr
      by_cases hy : y ≤ l + 5
      · rw [if_pos hy] at hr
        exact ih f y (by omega) hp.2 r hr
      · rw [if_neg hy] at hr
        rcases List.mem_cons.mp hr with hr | hr
        · subst hr; exact hfl
        · exact ih y y le_rfl hp.2 r hr

theorem runsGo_start_ge (xs : List Nat) :
    ∀ f l, f ≤ l → List.Pairwise (· < ·) (l :: xs) →
      ∀ r ∈ runsGo f l xs, f ≤ r.1 := by
  induction xs with
  | nil =>
      intro f l _ _ r hr
      simp only [runsGo, List.mem_singleton] at hr
      subst hr
      exact le_rfl
  | cons y ys ih =>
      intro f l hfl hp r hr
      rw [List.pairwise_cons] at hp
      have hly : l < y := hp.1 y (by simp)
      simp only [runsGo] at hr
      by_cases hy : y ≤ l + 5
      · rw [if_pos hy] at hr
        exact ih f y (by omega) hp.2 r hr
      · rw [if_neg hy] at hr
        rcases List.mem_cons.mp hr with hr | hr
        · subst hr; exact le_rfl
        · have := ih y y le_rfl hp.2 r hr
          omega

theorem runsGo_first (xs : List Nat) :
    ∀ f l, List.Pairwise (· < ·) (l :: xs) →
      ∃ q rest, runsGo f l xs = (f, q) :: rest ∧ l ≤ q := by
  induction xs with
  | nil =>
      intro f l _
      exact ⟨l, [], by simp [runsGo], le_rfl⟩
  | cons y ys ih =>
      intro f l hp
      rw [List.pairwise_cons] at hp
      have hly : l < y := hp.1 y (by simp)
      simp only [runsGo]
      by_cases hy : y ≤ l + 5
      · rw [if_pos hy]
        obtain ⟨q, rest, heq, hle⟩ := ih f y hp.2
        exact ⟨q, rest, heq, by omega⟩
      · rw [if_neg hy]
        exact ⟨l, runsGo y y ys, rfl, le_rfl⟩

theorem runsGo_gap_pairwise (xs : List Nat) :
    ∀ f l, f ≤ l → List.Pairwise (· < ·) (l :: xs) →
      List.Pairwise (fun r1 r2 : Nat × Nat => r1.2 + 5 < r2.1)
        (runsGo f l xs) := by
  induction xs with
  | nil =>
      intro f l _ _
      simp [runsGo]
  | cons y ys ih =>
      intro f l hfl hp
      have hp' := hp
      rw [List.pairwise_cons] at hp'
      have hly : l < y := hp'.1 y (by simp)
      simp only [runsGo]
      by_cases hy : y ≤ l + 5
      · rw [if_pos hy]
        exact ih f y (by omega) hp'.2
      · rw [if_neg hy]
        rw [List.pairwise_cons]
        refine ⟨?_, ih y y le_rfl hp'.2⟩
        intro r hr
        have := runsGo_start_ge ys y y le_rfl hp'.2 r hr
        simp only
        omega

theorem runsGo_covers (xs : List Nat) :
    ∀ f l, f ≤ l → List.Pairwise (· < ·) (l :: xs) →
      ∀ z ∈ l :: xs, ∃ r ∈ runsGo f l xs, r.1 ≤ z ∧ z ≤ r.2 := by
  induction xs with
  | nil =>
      intro f l hfl _ z hz
      simp only [List.mem_singleton] at hz
      subst hz
      exact ⟨(f, z), by simp [runsGo], hfl, le_rfl⟩
  | cons y ys ih =>
      intro f l hfl hp z hz
      rw [List.pairwise_cons] at hp
      have hly : l < y := hp.1 y (by simp)
      simp only [runsGo]
      by_cases hy : y ≤ l + 5
      · rw [if_pos hy]
        rcases List.mem_cons.mp hz with hzl | hz'
        · subst hzl
          obtain ⟨q, rest, heq, hq⟩ := runsGo_first ys f y hp.2
          refine ⟨(f, q), by rw [heq]; simp, hfl, by omega⟩
        · exact ih f y (by omega) hp.2 z hz'
      · rw [if_neg hy]
        rcases List.mem_cons.mp hz with hzl | hz'
        · subst hzl
          exact ⟨(f, z), by simp, hfl, le_rfl⟩
        · obtain ⟨r, hr, h1, h2⟩ := ih y y le_rfl hp.2 z hz'
          exact ⟨r, by simp [hr], h1, h2⟩

theorem runsGo_succ_within (xs : List Nat) :
    ∀ f l, f ≤ l → List.Pairwise (· < ·) (l :: xs) →
      ∀ r ∈ runsGo f l xs, ∀ z ∈ l :: xs, r.1 ≤ z → z < r.2 →
        ∃ w ∈ l :: xs, z < w ∧ w ≤ z + 5 ∧ w ≤ r.2 := by
  induction xs with
  | nil =>
      intro f l _ _ r hr z hz _ h2
      simp only [runsGo, List.mem_singleton] at hr
      simp only [List.mem_singleton] at hz
      subst hr; subst hz
      omega
  | cons y ys ih =>
      intro f l hfl hp r hr z hz h1 h2
      have hp' := hp
      rw [List.pairwise_cons] at hp'
      have hly : l < y := hp'.1 y (by simp)
      simp only [runsGo] at hr
      by_cases hy : y ≤ l + 5
      · rw [if_pos hy] at hr
        rcases List.mem_cons.mp hz with hzl | hz'
        · -- z = l: r must be the first run of `runsGo f y ys`
          subst hzl
          obtain ⟨q, rest, heq, hq⟩ := runsGo_first ys f y hp'.2
          have hgap := runsGo_gap_pairwise ys f y (by omega) hp'.2
          rw [heq] at hr hgap
          rw [List.pairwise_cons] at hgap
          rcases List.mem_cons.mp hr with hrf | hrest
          · subst hrf
            exact ⟨y, by simp, hly, hy, by simpa using hq⟩
          · exfalso
            have := hgap.1 r hrest
            omega
        · obtain ⟨w, hw, hw2⟩ := ih f y (by omega) hp'.2 r hr z hz' h1 h2
          exact ⟨w, by simp [List.mem_cons.mp hw], hw2⟩
      · rw [if_neg hy] at hr
        rcases List.mem_cons.mp hr with hr | hr
        · -- r = (f, l): nothing in `l :: y :: ys` is below `l`
          subst hr
          simp only at h2
          rcases List.mem_cons.mp hz with hzl | hz'
          · omega
          · exfalso
            have : l < z := hp'.1 z hz'
            omega
        · have hstart := runsGo_start_ge ys y y le_rfl hp'.2 r hr
          rcases List.mem_cons.mp hz with hzl | hz'
          · exfalso; subst hzl; omega
          · obtain ⟨w, hw, hw2⟩ := ih y y le_rfl hp'.2 r hr z hz' h1 h2
            exact ⟨w, by simp [List.mem_cons.mp hw], hw2⟩

/-! ## Facts about `flaggedUpTo` -/

theorem flaggedUpTo_sorted (k : Nat) (v : List Nat) :
    List.Pairwise (· < ·) (flaggedUpTo k v) :=
  (List.pairwise_lt_range' 1 k).filter _

theorem mem_flaggedUpTo {k : Nat} {v : List Nat} {x : Nat} :
    x ∈ flaggedUpTo k v ↔ x ∈ v ∧ 1 ≤ x ∧ x < 1 + k := by
  unfold flaggedUpTo
  rw [List.mem_filter, List.mem_range'_1]
  simp [and_comm]

theorem flaggedUpTo_zero (v : List Nat) : flaggedUpTo 0 v = [] := by
  simp [flaggedUpTo]

theorem flaggedUpTo_succ (k : Nat) (v : List Nat) :
    flaggedUpTo (k + 1) v =
      flaggedUpTo k v ++ (if (k + 1) ∈ v then [k + 1] else []) := by
  unfold flaggedUpTo
  rw [List.range'_1_concat, List.filter_append]
  have h1 : 1 + k = k + 1 := by omega
  rw [h1]
  congr 1
  by_cases h : (k + 1) ∈ v
  · simp [h]
  · simp [h]

/-! ## The sweep invariant and the characterization theorem -/

theorem inv_step (n : Nat) (v : List Nat) (k : Nat) (st : SweepState)
    (h : Inv n v k st) : Inv n v (k + 1) (snippetStep n v st (k + 1)) := by
  obtain ⟨cs, gap, ranges⟩ := st
  by_cases hv : (k + 1) ∈ v
  · cases cs with
    | none =>
        simp only [snippetStep, if_pos hv]
        simp only [Inv] at h ⊢
        rw [flaggedUpTo_succ, if_pos hv]
        rcases h with ⟨hF, hr⟩ | ⟨R, f0, p, hruns, hranges, hp5⟩
        · refine ⟨[], k + 1, k + 1, ?_, ?_, ?_, ?_, ?_, ?_⟩
          · rw [hF]; simp [runs, runsGo]
          · simpa using hr
          · simp [NUM_CONTEXT_LINES]
          · omega
          · omega
          · omega
        · refine ⟨R ++ [(f0, p)], k + 1, k + 1, ?_, ?_, ?_, ?_, ?_, ?_⟩
          · rw [runs_snoc_far hruns (by omega)]
            simp
          · simpa using hranges
          · simp [NUM_CONTEXT_LINES]
          · omega
          · omega
          · omega
    | some s =>
        simp only [snippetStep, if_pos hv]
        simp only [Inv] at h ⊢
        obtain ⟨R, f0, p, hruns, hranges, hs, hgap, hpk, hk4⟩ := h
        rw [flaggedUpTo_succ, if_pos hv]
        refine ⟨R, f0, k + 1, ?_, hranges, hs, ?_, ?_, ?_⟩
        · exact runs_snoc_near hruns (by omega)
        · omega
        · omega
        · omega
  · cases cs with
    | none =>
        simp only [snippetStep, if_neg hv]
        simp only [Inv] at h ⊢
        rw [flaggedUpTo_succ, if_neg hv, List.append_nil]
        rcases h with ⟨hF, hr⟩ | ⟨R, f0, p, hruns, hranges, hp5⟩
        · exact Or.inl ⟨hF, hr⟩
        · exact Or.inr ⟨R, f0, p, hruns, hranges, by omega⟩
    | some s =>
        simp only [snippetStep, if_neg hv, MAX_GAP_IN_SNIPPET]
        simp only [Inv] at h ⊢
        obtain ⟨R, f0, p, hruns, hranges, hs, hgap, hpk, hk4⟩ := h
        rw [flaggedUpTo_succ, if_neg hv, List.append_nil]
        by_cases hgap4 : 4 < gap
        · rw [if_pos hgap4]
          refine Or.inr ⟨R, f0, p, hruns, ?_, by omega⟩
          have hp : k + 1 - gap = p := by omega
          simp only [hp, List.map_append, hranges, NUM_CONTEXT_LINES]
          simp [clampRange, hs, NUM_CONTEXT_LINES]
        · rw [if_neg hgap4]
          refine ⟨R, f0, p, hruns, hranges, hs, ?_, by omega, by omega⟩
          show gap + 1 + p = (k + 1) + 1
          omega

theorem inv_foldl (n : Nat) (v : List Nat) (k : Nat) :
    Inv n v k
      ((List.range' 1 k).foldl (snippetStep n v) ⟨none, 0, []⟩) := by
  induction k with
  | zero => exact Or.inl ⟨flaggedUpTo_zero v, rfl⟩
  | succ k ih =>
      rw [List.range'_1_concat]
      have h1 : 1 + k = k + 1 := by omega
      rw [h1, List.foldl_append, List.foldl_cons, List.foldl_nil]
      exact inv_step n v k _ ih

/-- The sweep `_snippet_ranges` computes exactly the clamped maximal
runs of the in-file flagged lines. -/
theorem snippet_ranges_eq_specRanges (n : Nat) (v : List Nat) :
    snippet_ranges n v = specRanges n v := by
  have h := inv_foldl n v n
  unfold snippet_ranges
  generalize ((List.range' 1 n).foldl (snippetStep n v) ⟨none, 0, []⟩) = st at h
  obtain ⟨cs, gap, ranges⟩ := st
  unfold specRanges
  cases cs with
  | none =>
      simp only [Inv] at h
      simp only [finishSweep]
      rcases h with ⟨hF, hr⟩ | ⟨R, f0, p, hruns, hranges, hp5⟩
      · rw [hF, hr]; simp [runs]
      · rw [hruns, hranges]
  | some s =>
      simp only [Inv] at h
      obtain ⟨R, f0, p, hruns, hranges, hs, hgap, hpk, hk4⟩ := h
      simp only [finishSweep]
      rw [hruns, hranges, List.map_append]
      simp only [List.map_cons, List.map_nil]
      have : clampRange n (f0, p) = (s, n) := by
        simp [clampRange, hs, NUM_CONTEXT_LINES]
        omega
      rw [this]

/-! ## Run-level corollaries -/

theorem runs_mem_endpoints {xs : List Nat} {r : Nat × Nat}
    (hr : r ∈ runs xs) : r.1 ∈ xs ∧ r.2 ∈ xs := by
  rcases xs with _ | ⟨x, xs'⟩
  · simp [runs] at hr
  · exact runsGo_endpoints xs' x x r hr

theorem runs_fst_le_snd {xs : List Nat} (hp : List.Pairwise (· < ·) xs)
    {r : Nat × Nat} (hr : r ∈ runs xs) : r.1 ≤ r.2 := by
  rcases xs with _ | ⟨x, xs'⟩
  · simp [runs] at hr
  · exact runsGo_fst_le_snd xs' x x le_rfl hp r hr

theorem runs_gap_pairwise {xs : List Nat} (hp : List.Pairwise (· < ·) xs) :
    List.Pairwise (fun r1 r2 : Nat × Nat => r1.2 + 5 < r2.1) (runs xs) := by
  rcases xs with _ | ⟨x, xs'⟩
  · simp [runs]
  · exact runsGo_gap_pairwise xs' x x le_rfl hp

theorem runs_covers {xs : List Nat} (hp : List.Pairwise (· < ·) xs)
    {z : Nat} (hz : z ∈ xs) : ∃ r ∈ runs xs, r.1 ≤ z ∧ z ≤ r.2 := by
  rcases xs with _ | ⟨x, xs'⟩
  · simp at hz
  · exact runsGo_covers xs' x x le_rfl hp z hz

theorem runs_succ_within {xs : List Nat} (hp : List.Pairwise (· < ·) xs)
    {r : Nat × Nat} (hr : r ∈ runs xs) {z : Nat} (hz : z ∈ xs)
    (h1 : r.1 ≤ z) (h2 : z < r.2) :
    ∃ w ∈ xs, z < w ∧ w ≤ z + 5 ∧ w ≤ r.2 := by
  rcases xs with _ | ⟨x, xs'⟩
  · simp at hz
  · exact runsGo_succ_within xs' x x le_rfl hp r hr z hz h1 h2

/-- Bounds on a run of the in-file flagged lines. -/
theorem run_bounds {n : Nat} {v : List Nat} {u : Nat × Nat}
    (hu : u ∈ runs (flaggedUpTo n v)) :
    1 ≤ u.1 ∧ u.1 ≤ u.2 ∧ u.2 ≤ n ∧ u.1 ∈ v ∧ u.2 ∈ v := by
  obtain ⟨h1, h2⟩ := runs_mem_endpoints hu
  have hb1 := mem_flaggedUpTo.mp h1
  have hb2 := mem_flaggedUpTo.mp h2
  have hle := runs_fst_le_snd (flaggedUpTo_sorted n v) hu
  exact ⟨hb1.2.1, hle, by omega, hb1.1, hb2.1⟩

/-- A flagged line inside the clamped range of a run lies inside the
run itself: the context padding added by clamping never absorbs another
flagged line, because distinct runs are more than 5 lines apart. -/
theorem mem_clamp_run {n : Nat} {v : List Nat} {u : Nat × Nat} {f : Nat}
    (hu : u ∈ runs (flaggedUpTo n v)) (hf : f ∈ flaggedUpTo n v)
    (h1 : (clampRange n u).1 ≤ f) (h2 : f ≤ (clampRange n u).2) :
    u.1 ≤ f ∧ f ≤ u.2 := by
  obtain ⟨w, hw, hwf1, hwf2⟩ := runs_covers (flaggedUpTo_sorted n v) hf
  have hsymm :
      Symmetric (fun r1 r2 : Nat × Nat => r1.2 + 5 < r2.1 ∨ r2.2 + 5 < r1.1) :=
    fun r1 r2 h => h.symm
  have hpair :
      List.Pairwise (fun r1 r2 : Nat × Nat => r1.2 + 5 < r2.1 ∨ r2.2 + 5 < r1.1)
        (runs (flaggedUpTo n v)) :=
    (runs_gap_pairwise (flaggedUpTo_sorted n v)).imp Or.inl
  have hub := run_bounds hu
  have hwb := run_bounds hw
  simp only [clampRange, NUM_CONTEXT_LINES] at h1 h2
  by_cases heq : u = w
  · subst heq; omega
  · have := hpair.forall hsymm hu hw heq
    rcases this with h | h
    · -- the covering run lies strictly after `u`
      omega
    · -- the covering run lies strictly before `u`
      omega

/-- Every range returned by `_snippet_ranges` is well-formed. -/
theorem ranges_wellformed {n : Nat} {v : List Nat} {r : Nat × Nat}
    (hr : r ∈ snippet_ranges n v) : 1 ≤ r.1 ∧ r.1 ≤ r.2 ∧ r.2 ≤ n := by
  rw [snippet_ranges_eq_specRanges] at hr
  unfold specRanges at hr
  obtain ⟨u, hu, rfl⟩ := List.mem_map.mp hr
  have hb := run_bounds hu
  simp only [clampRange, NUM_CONTEXT_LINES]
  omega

/-! ## Claims -/

/-- C1 (counterexample): the ranges returned by `_snippet_ranges` are
NOT always pairwise non-overlapping.  For flagged lines `{10, 16}` over
a 30-line file, the sweep returns `(6, 14)` and `(12, 20)`, and lines
12–14 belong to both (line 12 shown explicitly). -/
theorem C1_counterexample :
    snippet_ranges 30 [10, 16] = [(6, 14), (12, 20)] ∧
    ¬ List.Pairwise (fun r1 r2 : Nat × Nat => r1.2 < r2.1 ∨ r2.2 < r1.1)
        (snippet_ranges 30 [10, 16]) ∧
    (6 ≤ 12 ∧ 12 ≤ 14 ∧ 12 ≤ 12 ∧ 12 ≤ 20) := by
  refine ⟨by decide, by decide, by decide⟩

/-- C1 (amended): for every `totalLines` and flagged-line input, the
ranges returned by `_snippet_ranges` are sorted strictly ascending both
by start and by end; they are however not always disjoint — consecutive
ranges can overlap on up to three context lines. -/
theorem C1_sorted_ascending (n : Nat) (v : List Nat) :
    List.Pairwise (fun r1 r2 : Nat × Nat => r1.1 < r2.1 ∧ r1.2 < r2.2)
      (snippet_ranges n v) := by
  rw [snippet_ranges_eq_specRanges]
  unfold specRanges
  rw [List.pairwise_map]
  refine List.Pairwise.imp_of_mem ?_
    (runs_gap_pairwise (flaggedUpTo_sorted n v))
  intro u w hu hw hrel
  have hub := run_bounds hu
  have hwb := run_bounds hw
  simp only [clampRange, NUM_CONTEXT_LINES]
  omega

/-- C2: every flagged line `f` lying inside a returned range `(s, e)`
has its full context window inside the range:
`s ≤ max 1 (f - NUM_CONTEXT_LINES)` and
`min totalLines (f + NUM_CONTEXT_LINES) ≤ e`. -/
theorem C2_flagged_context (n : Nat) (v : List Nat) (f : Nat)
    (r : Nat × Nat) (hf : f ∈ v) (hr : r ∈ snippet_ranges n v)
    (h1 : r.1 ≤ f) (h2 : f ≤ r.2) :
    r.1 ≤ max 1 (f - NUM_CONTEXT_LINES) ∧
      min n (f + NUM_CONTEXT_LINES) ≤ r.2 := by
  rw [snippet_ranges_eq_specRanges] at hr
  unfold specRanges at hr
  obtain ⟨u, hu, rfl⟩ := List.mem_map.mp hr
  have hub := run_bounds hu
  have hfF : f ∈ flaggedUpTo n v := by
    refine mem_flaggedUpTo.mpr ⟨hf, ?_, ?_⟩
    · simp only [clampRange, NUM_CONTEXT_LINES] at h1
      omega
    · simp only [clampRange, NUM_CONTEXT_LINES] at h2
      omega
  have := mem_clamp_run hu hfF h1 h2
  simp only [clampRange, NUM_CONTEXT_LINES] at *
  omega

/-- C2 witness: for flagged line 10 in a 20-line file, the single
returned range `(6, 14)` contains the full context window of line 10. -/
theorem C2_flagged_context_witness :
    (6, 14).1 ≤ max 1 (10 - NUM_CONTEXT_LINES) ∧
      min 20 (10 + NUM_CONTEXT_LINES) ≤ (6, 14).2 :=
  C2_flagged_context 20 [10] 10 (6, 14) (by decide) (by decide)
    (by decide) (by decide)

/-- C6: every range returned by `_snippet_ranges` is well-formed:
`1 ≤ start`, `start ≤ end`, `end ≤ totalLines`. -/
theorem C6_wellformed (n : Nat) (v : List Nat) (r : Nat × Nat)
    (hr : r ∈ snippet_ranges n v) : 1 ≤ r.1 ∧ r.1 ≤ r.2 ∧ r.2 ≤ n :=
  ranges_wellformed hr

/-- C6 witness: the range `(12, 20)` returned for flagged lines
`{10, 16}` over 30 lines is well-formed. -/
theorem C6_wellformed_witness :
    1 ≤ (12, 20).1 ∧ (12, 20).1 ≤ (12, 20).2 ∧ (12, 20).2 ≤ 30 :=
  C6_wellformed 30 [10, 16] (12, 20) (by decide)

/-- Any two runs are equal or more than 5 lines apart. -/
theorem runs_trichotomy {n : Nat} {v : List Nat} {u w : Nat × Nat}
    (hu : u ∈ runs (flaggedUpTo n v)) (hw : w ∈ runs (flaggedUpTo n v)) :
    u = w ∨ u.2 + 5 < w.1 ∨ w.2 + 5 < u.1 := by
  by_cases heq : u = w
  · exact Or.inl heq
  · have hsymm :
        Symmetric (fun r1 r2 : Nat × Nat => r1.2 + 5 < r2.1 ∨ r2.2 + 5 < r1.1) :=
      fun r1 r2 h => h.symm
    have hpair :
        List.Pairwise
          (fun r1 r2 : Nat × Nat => r1.2 + 5 < r2.1 ∨ r2.2 + 5 < r1.1)
          (runs (flaggedUpTo n v)) :=
      (runs_gap_pairwise (flaggedUpTo_sorted n v)).imp Or.inl
    exact Or.inr (hpair.forall hsymm hu hw heq)

/-- Every in-file flagged line lies inside some returned range. -/
theorem flagged_covered {n : Nat} {v : List Nat} {f : Nat}
    (hf : f ∈ v) (h1 : 1 ≤ f) (h2 : f ≤ n) :
    ∃ r ∈ snippet_ranges n v, r.1 ≤ f ∧ f ≤ r.2 := by
  rw [snippet_ranges_eq_specRanges]
  unfold specRanges
  have hfF : f ∈ flaggedUpTo n v := mem_flaggedUpTo.mpr ⟨hf, h1, by omega⟩
  obtain ⟨u, hu, hc1, hc2⟩ := runs_covers (flaggedUpTo_sorted n v) hfF
  have hub := run_bounds hu
  refine ⟨clampRange n u, List.mem_map_of_mem _ hu, ?_, ?_⟩ <;>
    · simp only [clampRange, NUM_CONTEXT_LINES]
      omega

/-- C3: gap tolerance is strictly-greater-than.  Two flagged lines with
exactly 4 non-flagged lines between them (distance 5) and no flagged
line in between land in one common range; with 5 or more intermediate
non-flagged lines (distance > 5) each is in a range but no single range
contains both.  Concretely, flagged lines `{30,31,32,35,36,60,62}` over
100 lines give exactly `(26, 40)` and `(56, 66)`. -/
theorem C3_gap_tolerance :
    (∀ (n : Nat) (v : List Nat) (f1 f2 : Nat),
        f1 ∈ v → f2 ∈ v → 1 ≤ f1 → f2 ≤ n → f2 = f1 + 5 →
        (∀ w ∈ v, ¬(f1 < w ∧ w < f2)) →
        ∃ r ∈ snippet_ranges n v, r.1 ≤ f1 ∧ f2 ≤ r.2) ∧
    (∀ (n : Nat) (v : List Nat) (f1 f2 : Nat),
        f1 ∈ v → f2 ∈ v → 1 ≤ f1 → f2 ≤ n → f1 + 5 < f2 →
        (∀ w ∈ v, ¬(f1 < w ∧ w < f2)) →
        (∃ r1 ∈ snippet_ranges n v, r1.1 ≤ f1 ∧ f1 ≤ r1.2) ∧
        (∃ r2 ∈ snippet_ranges n v, r2.1 ≤ f2 ∧ f2 ≤ r2.2) ∧
        ∀ r ∈ snippet_ranges n v, ¬(r.1 ≤ f1 ∧ f2 ≤ r.2)) ∧
    snippet_ranges 100 [30, 31, 32, 35, 36, 60, 62] =
      [(26, 40), (56, 66)] := by
  refine ⟨?_, ?_, by decide⟩
  · intro n v f1 f2 hf1 hf2 h1 h2 hdist hbetween
    have hf1F : f1 ∈ flaggedUpTo n v :=
      mem_flaggedUpTo.mpr ⟨hf1, h1, by omega⟩
    have hf2F : f2 ∈ flaggedUpTo n v :=
      mem_flaggedUpTo.mpr ⟨hf2, by omega, by omega⟩
    obtain ⟨u, hu, hc1, hc2⟩ := runs_covers (flaggedUpTo_sorted n v) hf1F
    have hub := run_bounds hu
    have hf2u : f2 ≤ u.2 := by
      by_contra hcon
      push_neg at hcon
      -- then the run of `f1` ends at `f1` itself…
      have hu2 : u.2 = f1 := by
        have hv2 : u.2 ∈ v := hub.2.2.2.2
        have := hbetween u.2 hv2
        omega
      -- …and the run covering `f2` is either equal to it or > 5 away
      obtain ⟨w, hw, hd1, hd2⟩ := runs_covers (flaggedUpTo_sorted n v) hf2F
      have hwb := run_bounds hw
      rcases runs_trichotomy hu hw with heq | hlt | hgt
      · subst heq; omega
      · omega
      · omega
    rw [snippet_ranges_eq_specRanges]
    unfold specRanges
    refine ⟨clampRange n u, List.mem_map_of_mem _ hu, ?_, ?_⟩ <;>
      · simp only [clampRange, NUM_CONTEXT_LINES]
        omega
  · intro n v f1 f2 hf1 hf2 h1 h2 hdist hbetween
    have hf1F : f1 ∈ flaggedUpTo n v :=
      mem_flaggedUpTo.mpr ⟨hf1, h1, by omega⟩
    have hf2F : f2 ∈ flaggedUpTo n v :=
      mem_flaggedUpTo.mpr ⟨hf2, by omega, by omega⟩
    refine ⟨flagged_covered hf1 h1 (by omega),
      flagged_covered hf2 (by omega) h2, ?_⟩
    intro r hr ⟨ha, hb⟩
    rw [snippet_ranges_eq_specRanges] at hr
    unfold specRanges at hr
    obtain ⟨u, hu, rfl⟩ := List.mem_map.mp hr
    have hub := run_bounds hu
    have hin1 := mem_clamp_run hu hf1F ha (by
      have := mem_clamp_run hu hf2F (by
        simp only [clampRange, NUM_CONTEXT_LINES] at *; omega) hb
      simp only [clampRange, NUM_CONTEXT_LINES] at *
      omega)
    have hin2 := mem_clamp_run hu hf2F (by
      simp only [clampRange, NUM_CONTEXT_LINES] at *; omega) hb
    obtain ⟨w, hwF, hw1, hw2, hw3⟩ :=
      runs_succ_within (flaggedUpTo_sorted n v) hu hf1F hin1.1 (by omega)
    have hwv : w ∈ v := (mem_flaggedUpTo.mp hwF).1
    exact hbetween w hwv ⟨hw1, by omega⟩

/-- C3 witness: flagged lines 10 and 15 (distance 5: exactly 4
non-flagged lines between) over 30 lines share a range; flagged lines
10 and 16 (5 intermediate non-flagged lines) do not. -/
theorem C3_gap_tolerance_witness :
    (∃ r ∈ snippet_ranges 30 [10, 15], r.1 ≤ 10 ∧ 15 ≤ r.2) ∧
    (∀ r ∈ snippet_ranges 30 [10, 16], ¬(r.1 ≤ 10 ∧ 16 ≤ r.2)) :=
  ⟨C3_gap_tolerance.1 30 [10, 15] 10 15 (by decide) (by decide)
      (by decide) (by decide) (by decide) (by decide),
    (C3_gap_tolerance.2.1 30 [10, 16] 10 16 (by decide) (by decide)
      (by decide) (by decide) (by decide) (by decide)).2.2⟩

theorem flaggedUpTo_gt {k L : Nat} (h : k < L) : flaggedUpTo k [L] = [] := by
  unfold flaggedUpTo
  rw [List.filter_eq_nil_iff]
  intro a ha
  have := List.mem_range'_1.mp ha
  simp only [List.mem_singleton, decide_eq_true_eq]
  omega

theorem flaggedUpTo_singleton {n L : Nat} (h1 : 1 ≤ L) (h2 : L ≤ n) :
    flaggedUpTo n [L] = [L] := by
  induction n with
  | zero => omega
  | succ n ih =>
      rw [flaggedUpTo_succ]
      by_cases hL : L ≤ n
      · rw [ih hL, if_neg (by simp; omega)]
        simp
      · have hLn : L = n + 1 := by omega
        rw [flaggedUpTo_gt (by omega), if_pos (by simp [hLn])]
        simp [hLn]

/-- C4: a single in-file flagged line `L` yields exactly the one range
`(max 1 (L - 4), min totalLines (L + 4))`, whether the range is closed
during the sweep or by the trailing end-of-sweep step. -/
theorem C4_single_line (n L : Nat) (h1 : 1 ≤ L) (h2 : L ≤ n) :
    snippet_ranges n [L] =
      [(max 1 (L - NUM_CONTEXT_LINES), min n (L + NUM_CONTEXT_LINES))] := by
  rw [snippet_ranges_eq_specRanges]
  unfold specRanges
  rw [flaggedUpTo_singleton h1 h2]
  simp [runs, runsGo, clampRange]

/-- C4 witness: line 8 of a 10-line file gives the single range
`(4, 10)` (closed by the trailing end-of-sweep step). -/
theorem C4_single_line_witness :
    snippet_ranges 10 [8] =
      [(max 1 (8 - NUM_CONTEXT_LINES), min 10 (8 + NUM_CONTEXT_LINES))] :=
  C4_single_line 10 8 (by decide) (by decide)

/-- C5 (counterexample): extraction from a zero-length source does NOT
always yield zero snippets.  The empty text splits into one empty line,
so with flagged line 1 `load_snippets` produces exactly one snippet. -/
theorem C5_counterexample :
    (load_snippets [] "src.py" [1]).length = 1 ∧
    load_snippets [] "src.py" [1] ≠ [] :=
  ⟨by decide, by decide⟩

/-- C5 (amended): an empty flagged-line set yields zero ranges for
every `totalLines`, and `totalLines = 0` yields zero ranges for every
flagged-line input.  A zero-length source, however, splits into one
empty line, so extraction from it yields zero snippets exactly when
line 1 is not flagged. -/
theorem C5_empty_inputs :
    (∀ n : Nat, snippet_ranges n [] = []) ∧
    (∀ v : List Nat, snippet_ranges 0 v = []) ∧
    (∀ (p : String) (v : List Nat), 1 ∉ v → load_snippets [] p v = []) := by
  refine ⟨?_, ?_, ?_⟩
  · intro n
    rw [snippet_ranges_eq_specRanges]
    unfold specRanges
    have hF : flaggedUpTo n [] = [] := by simp [flaggedUpTo]
    rw [hF]
    rfl
  · intro v
    rw [snippet_ranges_eq_specRanges]
    unfold specRanges
    rw [flaggedUpTo_zero]
    rfl
  · intro p v h
    have hr : snippet_ranges 1 v = [] := by
      rw [snippet_ranges_eq_specRanges]
      unfold specRanges
      have hF : flaggedUpTo 1 v = [] := by
        unfold flaggedUpTo
        rw [List.range'_one]
        simp [h]
      rw [hF]
      rfl
    simp only [load_snippets]
    have hlen : (splitOnNewline ([] : List Char)).length = 1 := rfl
    rw [hlen, hr]
    rfl

/-- C5 witness: no flagged lines over 7 lines, a zero-line file with
flagged line 3, and an empty source with flagged line 2 all yield
nothing. -/
theorem C5_empty_inputs_witness :
    snippet_ranges 7 [] = [] ∧ snippet_ranges 0 [3] = [] ∧
    load_snippets [] "src.py" [2] = [] :=
  ⟨C5_empty_inputs.1 7, C5_empty_inputs.2.1 [3],
    C5_empty_inputs.2.2 "src.py" [2] (by decide)⟩

/-- C7: the remap `_shift_lines` maps each input line `≥ start` to
`line - start + 1`, silently drops each input line `< start`, and keeps
the surviving elements in input order (the `filterMap` form fixes the
output completely); `[5,8,9]` with start 3 gives `[3,6,7]` and `[1,2]`
with start 3 gives `[]`. -/
theorem C7_shift_lines :
    shift_lines [5, 8, 9] 3 = [3, 6, 7] ∧
    shift_lines [1, 2] 3 = [] ∧
    ∀ (l : List Int) (s : Int),
      shift_lines l s =
        l.filterMap (fun x => if s ≤ x then some (x - s + 1) else none) := by
  refine ⟨by decide, by decide, ?_⟩
  intro l s
  induction l with
  | nil => rfl
  | cons x xs ih =>
      simp only [shift_lines] at ih
      simp only [shift_lines, List.filter_cons, List.filterMap_cons]
      by_cases hx : s ≤ x
      · simp [hx, ih]
      · simp [hx, ih]

/-- C8: constructing a `Snippet` fails (raises `ValueError`) if and
only if `start_line < 1`; for `start_line ≥ 1` construction always
succeeds, whatever the other arguments are. -/
theorem C8_constructor_guard (src : List Char) (fname : String)
    (st : Int) (v : List Nat) :
    Snippet.make src fname st v = none ↔ st < 1 := by
  unfold Snippet.make
  by_cases h : st < 1
  · simp [h]
  · simp [h]

/-- Function `_snippet_ranges` depends on the flagged-line input only through
membership. -/
theorem snippet_ranges_congr (n : Nat) {v w : List Nat}
    (h : ∀ x, x ∈ v ↔ x ∈ w) :
    snippet_ranges n v = snippet_ranges n w := by
  rw [snippet_ranges_eq_specRanges, snippet_ranges_eq_specRanges]
  unfold specRanges
  have hF : flaggedUpTo n v = flaggedUpTo n w := by
    unfold flaggedUpTo
    exact List.filter_congr (fun a _ => by simp [h a])
  rw [hF]

/-- C9: duplicate flagged-line numbers have no observable effect:
`_snippet_ranges` returns the same ranges on a flagged-line list and on
its deduplicated version. -/
theorem C9_dedup (n : Nat) (v : List Nat) :
    snippet_ranges n v = snippet_ranges n v.dedup :=
  snippet_ranges_congr n (fun x => (List.mem_dedup (a := x)).symm)

/-- C10: the `start_line < 1` guard of the constructor is unreachable
through extraction: every snippet built by `load_snippets` is
constructed successfully, for any contents and flagged-line input. -/
theorem C10_extraction_safe (contents : List Char) (p : String)
    (v : List Nat) (s : Option Snippet)
    (hs : s ∈ load_snippets contents p v) : s.isSome := by
  simp only [load_snippets] at hs
  obtain ⟨se, hse, rfl⟩ := List.mem_map.mp hs
  have hwf := ranges_wellformed hse
  have h1 : 1 ≤ se.1 := hwf.1
  unfold Snippet.make
  rw [if_neg (by omega)]
  rfl

/-- C10 witness: the one snippet extracted from the one-line source
`"a"` with flagged line 1 is successfully constructed. -/
theorem C10_extraction_safe_witness :
    (some (⟨['a'], "f", 1, [1]⟩ : Snippet) : Option Snippet).isSome :=
  C10_extraction_safe ['a'] "f" [1] (some ⟨['a'], "f", 1, [1]⟩) (by decide)

end DiffCover
